import Mathlib

/-!
Verification development for the morphological-analysis core of the
LanguageLeraningTools repository (src/src/app.py, src/src/morph_utils.py).

The external analyzer (pymorphy2) is an external collaborator: it is modelled
as an abstract oracle (`MorphOracle`) supplying `parse` and `inflect`.  All
repository functions are shallowly embedded over that oracle, following the
Python source line by line.  Python strings are modelled as Lean `String`
(operating on `String.data : List Char`); Python dicts that the repository
builds are modelled as insertion-ordered association lists, which is exactly
the observable behaviour of CPython dicts.
-/

namespace LLT

/-- Python `str.lower` restricted to the alphabets this application handles
(ASCII Latin and modern Russian Cyrillic, including Ё).  Mirrors
`word.lower()` as used in `src/src/app.py`. -/
def pyCharLower (c : Char) : Char :=
  if 'A' ≤ c ∧ c ≤ 'Z' then Char.ofNat (c.toNat + 32)
  else if c = 'Ё' then 'ё'
  else if 'А' ≤ c ∧ c ≤ 'Я' then Char.ofNat (c.toNat + 32)
  else c

def pyToLower (s : String) : String :=
  String.mk (s.data.map pyCharLower)

/-- Python `str.isspace` characters (the set stripped by `str.strip()`). -/
def pyIsSpace (c : Char) : Bool :=
  c = ' ' || c = '\t' || c = '\n' || c = '\r' ||
  c.toNat = 0xb || c.toNat = 0xc ||
  (0x1c ≤ c.toNat && c.toNat ≤ 0x1f) ||
  c.toNat = 0x85 || c.toNat = 0xa0 || c.toNat = 0x1680 ||
  (0x2000 ≤ c.toNat && c.toNat ≤ 0x200a) ||
  c.toNat = 0x2028 || c.toNat = 0x2029 || c.toNat = 0x202f ||
  c.toNat = 0x205f || c.toNat = 0x3000

/-- The character class of `morph_utils.py` line 141,
regex `[.,;:!?""«»—\-–…]` (trailing strip; the doubled plain ASCII quote
in the source is a single class member). -/
def trailPunct (c : Char) : Bool :=
  c = '.' || c = ',' || c = ';' || c = ':' || c = '!' || c = '?' ||
  c = '"' || c = '«' || c = '»' || c = '—' || c = '-' || c = '–' || c = '…'

/-- The character class of `morph_utils.py` line 142, regex `^[""«»—\-–…]+`
(leading strip). -/
def leadPunct (c : Char) : Bool :=
  c = '"' || c = '«' || c = '»' || c = '—' || c = '-' || c = '–' || c = '…'

/-- Drop the maximal run of characters satisfying `p` from the end of a list. -/
def dropTrailing (p : Char → Bool) (l : List Char) : List Char :=
  (l.reverse.dropWhile p).reverse

/-- Python `re.sub(r'[class]+$', '', s)` (no MULTILINE): `$` matches at the
end of the string, and additionally just before a single trailing newline. -/
def rstripTrailPunct (l : List Char) : List Char :=
  match l.getLast? with
  | some lc =>
      if lc = '\n' then dropTrailing trailPunct l.dropLast ++ ['\n']
      else dropTrailing trailPunct l
  | none => l

/-- Python `str.strip()` on a character list. -/
def pyStripL (l : List Char) : List Char :=
  dropTrailing pyIsSpace (l.dropWhile pyIsSpace)

/-- Python `str.strip()` on a string (`.strip()` in the source). -/
def pyStrip (s : String) : String :=
  String.mk (pyStripL s.data)

/-- `MorphAnalyzer.normalize_word` from `src/src/morph_utils.py` lines
136-143: strip one trailing punctuation run (with Python `$`-before-newline
semantics), then one leading quote/dash run, then whitespace. -/
def normalize_word_mu (w : String) : String :=
  if w = "" then w
  else String.mk (pyStripL ((rstripTrailPunct w.data).dropWhile leadPunct))

/-! General list helpers used throughout the development. -/

theorem dropWhile_head_not_here {α : Type} {p : α → Bool} {l : List α} {c : α} {t : List α}
    (h : l.dropWhile p = c :: t) : p c = false := by
  have hh := List.head?_dropWhile_not p l
  rw [h] at hh
  simpa using hh

theorem dropWhile_eq_self_of_head {α : Type} {p : α → Bool} {l : List α}
    (h : ∀ c, l.head? = some c → p c = false) : l.dropWhile p = l := by
  cases l with
  | nil => rfl
  | cons c t =>
      rw [List.dropWhile_cons, h c rfl]
      simp

theorem dropWhile_eq_self_of_all {α : Type} {p : α → Bool} {l : List α}
    (h : ∀ c ∈ l, p c = false) : l.dropWhile p = l := by
  apply dropWhile_eq_self_of_head
  intro c hc
  exact h c (by cases l with
    | nil => simp at hc
    | cons a t => simp at hc; simp [hc])

theorem mem_of_mem_dropWhile {α : Type} {p : α → Bool} {l : List α} {a : α}
    (h : a ∈ l.dropWhile p) : a ∈ l :=
  (List.dropWhile_sublist p).subset h

theorem getLast?_dropWhile_of_ne_nil {α : Type} {p : α → Bool} {l : List α}
    (h : l.dropWhile p ≠ []) : (l.dropWhile p).getLast? = l.getLast? := by
  induction l with
  | nil => simp at h
  | cons c t ih =>
      rw [List.dropWhile_cons] at h ⊢
      by_cases hp : p c
      · rw [if_pos hp] at h ⊢
        have ht : t ≠ [] := by
          intro he
          rw [he] at h
          simp at h
        rw [ih h]
        cases t with
        | nil => exact absurd rfl ht
        | cons x t2 => rw [List.getLast?_cons_cons]
      · rw [if_neg hp]

theorem dropTrailing_getLast_not {p : Char → Bool} {l : List Char} {c : Char}
    (h : (LLT.dropTrailing p l).getLast? = some c) : p c = false := by
  unfold LLT.dropTrailing at h
  rw [List.getLast?_reverse] at h
  have hh := List.head?_dropWhile_not p l.reverse
  rw [h] at hh
  simpa using hh

theorem dropTrailing_eq_self {p : Char → Bool} {l : List Char}
    (h : ∀ c, l.getLast? = some c → p c = false) : LLT.dropTrailing p l = l := by
  unfold LLT.dropTrailing
  rw [dropWhile_eq_self_of_head, List.reverse_reverse]
  intro c hc
  rw [List.head?_reverse] at hc
  exact h c hc

theorem mem_of_mem_dropTrailing {p : Char → Bool} {l : List Char} {a : Char}
    (h : a ∈ LLT.dropTrailing p l) : a ∈ l := by
  unfold LLT.dropTrailing at h
  rw [List.mem_reverse] at h
  exact List.mem_reverse.mp (mem_of_mem_dropWhile h)

theorem pyStripL_eq_self {l : List Char} (h : ∀ c ∈ l, pyIsSpace c = false) :
    pyStripL l = l := by
  unfold pyStripL
  rw [dropWhile_eq_self_of_all h]
  exact dropTrailing_eq_self (fun c hc => h c (List.mem_of_getLast?_eq_some hc))

/-- C2 counterexample: `normalize_word` is not idempotent.  On input
`"abc. "` the first pass only strips the trailing space (the dot is not at
the end of the string, so the trailing-punctuation regex does not fire),
producing `"abc."`; the second pass then strips the dot, producing `"abc"`. -/
theorem normalize_word_mu_not_idempotent :
    normalize_word_mu (normalize_word_mu "abc. ") ≠ normalize_word_mu "abc. " := by
  decide

/-- C2 amended: for every word containing no whitespace characters,
`MorphAnalyzer.normalize_word` (morph_utils.py lines 136-143) is idempotent:
the punctuation strips leave a string whose ends carry no strippable
characters, so a second application changes nothing. -/
theorem normalize_word_mu_idempotent_of_no_space (w : String)
    (h : ∀ c ∈ w.data, pyIsSpace c = false) :
    normalize_word_mu (normalize_word_mu w) = normalize_word_mu w := by
  by_cases hw : w = ""
  · subst hw; rfl
  · have hldata : w.data ≠ [] := by
      intro he
      exact hw (by cases w with | mk d => simp at he; simp [he])
    -- first application
    have hstep1 : normalize_word_mu w =
        String.mk ((dropTrailing trailPunct w.data).dropWhile leadPunct) := by
      unfold normalize_word_mu
      rw [if_neg hw]
      have hrs : rstripTrailPunct w.data = dropTrailing trailPunct w.data := by
        unfold rstripTrailPunct
        cases hL : w.data.getLast? with
        | none =>
            exact absurd (List.getLast?_eq_none_iff.mp hL) hldata
        | some lc =>
            have hmem : lc ∈ w.data := List.mem_of_getLast?_eq_some hL
            have : lc ≠ '\n' := by
              intro he
              rw [he] at hmem
              have := h _ hmem
              simp [pyIsSpace] at this
            simp [this]
      rw [hrs, pyStripL_eq_self]
      intro c hc
      exact h c (mem_of_mem_dropTrailing (mem_of_mem_dropWhile hc))
    set n2 : List Char := (dropTrailing trailPunct w.data).dropWhile leadPunct with hn2
    rw [hstep1]
    by_cases hnil : n2 = []
    · rw [hnil]
      rfl
    · have hn2sub : ∀ c ∈ n2, c ∈ w.data := by
        intro c hc
        exact mem_of_mem_dropTrailing (mem_of_mem_dropWhile hc)
      have hn2nospace : ∀ c ∈ n2, pyIsSpace c = false := fun c hc => h c (hn2sub c hc)
      -- second application
      unfold normalize_word_mu
      have hne : String.mk n2 ≠ "" := by
        intro he
        exact hnil (by
          have := congrArg String.data he
          simpa using this)
      rw [if_neg hne]
      have hdata : (String.mk n2).data = n2 := rfl
      rw [hdata]
      obtain ⟨c, hc⟩ : ∃ c, n2.getLast? = some c := by
        cases hg : n2.getLast? with
        | none => exact absurd (List.getLast?_eq_none_iff.mp hg) hnil
        | some c => exact ⟨c, rfl⟩
      have hcn : c ≠ '\n' := by
        intro he
        have hm := hn2sub c (List.mem_of_getLast?_eq_some hc)
        have := h c hm
        rw [he] at this
        simp [pyIsSpace] at this
      have hrs2 : rstripTrailPunct n2 = dropTrailing trailPunct n2 := by
        unfold rstripTrailPunct
        rw [hc]
        simp [hcn]
      rw [hrs2]
      have hlastTrail : ∀ x, n2.getLast? = some x → trailPunct x = false := by
        intro x hx
        have hgl : n2.getLast? = (dropTrailing trailPunct w.data).getLast? :=
          getLast?_dropWhile_of_ne_nil (hn2 ▸ hnil)
        rw [hgl] at hx
        exact dropTrailing_getLast_not hx
      rw [dropTrailing_eq_self hlastTrail]
      have hhead : n2.dropWhile leadPunct = n2 := by
        apply dropWhile_eq_self_of_head
        intro x hx
        have hh := List.head?_dropWhile_not leadPunct (dropTrailing trailPunct w.data)
        rw [← hn2, hx] at hh
        simpa using hh
      rw [hhead, pyStripL_eq_self hn2nospace]

/-- Witness for C2 amended at the concrete whitespace-free input `"мир.,"`. -/
theorem normalize_word_mu_idempotent_witness :
    normalize_word_mu (normalize_word_mu "мир.,") = normalize_word_mu "мир.," :=
  normalize_word_mu_idempotent_of_no_space "мир.," (by decide)

/-! The external analyzer (pymorphy2) modelled as an abstract oracle.
A `Parse` is one candidate analysis object; `Tag` carries the attributes the
repository code reads from `parse.tag`.  `raw` models `str(parse.tag)`. -/

structure Tag where
  POS : Option String
  gcase : Option String
  raw : String
deriving DecidableEq

structure Parse where
  word : String
  normal_form : String
  tag : Tag
deriving DecidableEq

/-- The external pymorphy2 analyzer: `parse(word)` returns the ordered
candidate analyses; `inflect p tags` models `p.inflect({tags})` returning
the inflected parse or `None`.  Tag sets are encoded as lists written in the
source order of the Python set literal. -/
structure MorphOracle where
  parse : String → List Parse
  inflect : Parse → List String → Option Parse

/-- `MorphAnalyzer.get_lemma` from `src/src/morph_utils.py` lines 39-49:
unavailable analyzer or empty word returns the word itself; otherwise the
first parse's normal form (an empty parse list raises IndexError which the
`except` swallows, returning the word). -/
def get_lemma (mo : Option MorphOracle) (w : String) : String :=
  match mo with
  | none => w
  | some m =>
      if w = "" then w
      else
        match m.parse w with
        | [] => w
        | p :: _ => p.normal_form

/-- `normalize_word` from `src/src/app.py` lines 2567-2582 (the lemmatizer):
distinct normal forms of all parses; `list(set(...))` is modelled as
`List.dedup` (the claims about it are order-independent, matching Python's
unspecified set iteration order).  Unavailable analyzer or no forms yields
`[word.lower()]`. -/
def normalize_word_app (mo : Option MorphOracle) (word : String) : List String :=
  match mo with
  | none => [pyToLower word]
  | some m =>
      let normal_forms := ((m.parse word).map (fun p => p.normal_form)).dedup
      if normal_forms.isEmpty then [pyToLower word] else normal_forms

/-- C8: for every word with at least one candidate analysis (all carrying a
non-empty lemma, the external dictionary contract), `normalize_word`
(app.py lines 2567-2582) returns a non-empty duplicate-free list of lemmas;
every candidate lemma appears (not just the top parse's) and every returned
lemma is a candidate lemma, hence non-empty. -/
theorem normalize_word_app_nonempty_distinct (m : MorphOracle) (w : String)
    (h1 : m.parse w ≠ []) (h2 : ∀ p ∈ m.parse w, p.normal_form ≠ "") :
    normalize_word_app (some m) w ≠ [] ∧
    (normalize_word_app (some m) w).Nodup ∧
    (∀ p ∈ m.parse w, p.normal_form ∈ normalize_word_app (some m) w) ∧
    (∀ l ∈ normalize_word_app (some m) w,
      (∃ p ∈ m.parse w, p.normal_form = l) ∧ l ≠ "") := by
  have hne : ((m.parse w).map (fun p => p.normal_form)).dedup ≠ [] := by
    cases hp : m.parse w with
    | nil => exact absurd hp h1
    | cons p ps =>
        intro habs
        have hmem : p.normal_form ∈ ((m.parse w).map (fun p => p.normal_form)).dedup := by
          rw [List.mem_dedup, List.mem_map]
          exact ⟨p, by rw [hp]; exact List.mem_cons_self p ps, rfl⟩
        rw [hp, habs] at hmem
        simp at hmem
  have hne2 : ((m.parse w).map (fun p => p.normal_form)).dedup.isEmpty = false := by
    rw [List.isEmpty_eq_false]
    exact hne
  have hval : normalize_word_app (some m) w =
      ((m.parse w).map (fun p => p.normal_form)).dedup := by
    simp [normalize_word_app, hne2]
  refine ⟨?_, ?_, ?_, ?_⟩
  · rw [hval]
    exact hne
  · rw [hval]
    exact List.nodup_dedup _
  · intro p hp
    rw [hval, List.mem_dedup, List.mem_map]
    exact ⟨p, hp, rfl⟩
  · intro l hl
    rw [hval, List.mem_dedup, List.mem_map] at hl
    obtain ⟨p, hp, hnf⟩ := hl
    exact ⟨⟨p, hp, hnf⟩, by rw [← hnf]; exact h2 p hp⟩

/-- A small concrete oracle for witnesses: two candidate analyses of the
ambiguous surface form `"книги"`. -/
def knigiParse1 : Parse :=
  { word := "книги", normal_form := "книга",
    tag := { POS := some "NOUN", gcase := some "gent", raw := "NOUN,inan,femn sing,gent" } }

def knigiParse2 : Parse :=
  { word := "книги", normal_form := "книги",
    tag := { POS := some "NOUN", gcase := some "nomn", raw := "NOUN,inan,femn plur,nomn" } }

def knigiOracle : MorphOracle :=
  { parse := fun w => if w = "книги" then [knigiParse1, knigiParse2] else [],
    inflect := fun _ _ => none }

/-- Witness for C8 at the concrete ambiguous word `"книги"`. -/
theorem normalize_word_app_nonempty_distinct_witness :
    normalize_word_app (some knigiOracle) "книги" ≠ [] ∧
    (normalize_word_app (some knigiOracle) "книги").Nodup ∧
    (∀ p ∈ knigiOracle.parse "книги",
      p.normal_form ∈ normalize_word_app (some knigiOracle) "книги") ∧
    (∀ l ∈ normalize_word_app (some knigiOracle) "книги",
      (∃ p ∈ knigiOracle.parse "книги", p.normal_form = l) ∧ l ≠ "") :=
  normalize_word_app_nonempty_distinct knigiOracle "книги" (by decide) (by decide)

/-! Python dict values built by the paradigm generators of `src/src/app.py`
are heterogeneous (nested dicts and strings), modelled by `Val`.  A dict is
an insertion-ordered association list. -/

inductive Val where
  | str : String → Val
  | dict : List (String × Val) → Val

/-- Lookup in an insertion-ordered association list (Python `d[k]` /
`k in d`). -/
def alookup {α : Type} : List (String × α) → String → Option α
  | [], _ => none
  | (k, v) :: t, k0 => if k = k0 then some v else alookup t k0

/-- Lookup of a dict key inside a `Val`. -/
def dlookup (v : Val) (k : String) : Option Val :=
  match v with
  | Val.str _ => none
  | Val.dict l => alookup l k

/-! Closed tag enumerations and their display labels, exactly the literal
lists and dicts of `src/src/app.py` (`cases`, `case_names`, `numbers`,
`number_names`, `genders`, `gender_names`, `persons`, `person_names`,
tense keys). -/

def nounCases : List String := ["nomn", "gent", "datv", "accs", "ablt", "loct"]

def case_names (c : String) : String :=
  if c = "nomn" then "主格" else if c = "gent" then "属格"
  else if c = "datv" then "与格" else if c = "accs" then "宾格"
  else if c = "ablt" then "工具格" else if c = "loct" then "前置格" else c

/-- The verb participle tables use different case labels (app.py 2880-2887). -/
def vcase_names (c : String) : String :=
  if c = "nomn" then "一格" else if c = "gent" then "二格"
  else if c = "datv" then "三格" else if c = "accs" then "四格"
  else if c = "ablt" then "五格" else if c = "loct" then "六格" else c

def numbersL : List String := ["sing", "plur"]

def number_names (n : String) : String :=
  if n = "sing" then "单数" else if n = "plur" then "复数" else n

def gendersL : List String := ["masc", "femn", "neut"]

def gender_names (g : String) : String :=
  if g = "masc" then "阳性" else if g = "femn" then "阴性"
  else if g = "neut" then "中性" else g

def tensesL : List String := ["pres", "futr"]

def tenseKey (t : String) : String := if t = "pres" then "现在时" else "将来时"

def personsL : List String := ["1per", "2per", "3per"]

def person_names (p : String) : String :=
  if p = "1per" then "一" else if p = "2per" then "二"
  else if p = "3per" then "三" else p

/-- A possibly-absent dict entry (Python `if inflected: d[k] = inflected.word`). -/
def optEntry (k : String) (o : Option Parse) : List (String × Val) :=
  match o with
  | some i => [(k, Val.str i.word)]
  | none => []

/-- `generate_noun_inflections` from `src/src/app.py` lines 2725-2766.
Outer keys: the two number labels (always created); inner keys: the case
labels of forms the analyzer could produce.  Note the source requests
`parse.inflect({case})` for the singular row (without the `sing` tag) and
`parse.inflect({case, num})` for the plural row. -/
def generate_noun_inflections (mo : Option MorphOracle) (p : Parse) : Val :=
  match mo with
  | none => Val.dict []
  | some m =>
      Val.dict (numbersL.map fun num =>
        (number_names num,
         Val.dict (nounCases.filterMap fun c =>
           (if num = "sing" then m.inflect p [c] else m.inflect p [c, num]).map
             fun infl => (case_names c, Val.str infl.word))))

/-- The present/future block of `generate_verb_inflections`
(app.py lines 2783-2815): tense → number → person, each cell from
`parse.inflect({tense, person, num})`, omitted when absent. -/
def verbPresentFuture (m : MorphOracle) (p : Parse) : Val :=
  Val.dict (tensesL.map fun t =>
    (tenseKey t,
     Val.dict (numbersL.map fun n =>
       (number_names n,
        Val.dict (personsL.filterMap fun per =>
          (m.inflect p [t, per, n]).map fun i => (person_names per, Val.str i.word))))))

/-- Past-tense block (app.py lines 2817-2843). -/
def verbPastTense (m : MorphOracle) (p : Parse) : Val :=
  Val.dict
    ((gendersL.filterMap fun g =>
        (m.inflect p ["past", g]).map fun i => (gender_names g, Val.str i.word)) ++
     optEntry "复数" (m.inflect p ["past", "plur"]))

/-- Adverbial participle forms (app.py lines 2845-2862). -/
def verbAdverbialParticiple (m : MorphOracle) (p : Parse) : List String :=
  (match m.inflect p ["GRND", "past"] with
   | some i => [i.word]
   | none => []) ++
  (match m.inflect p ["GRND", "pres"] with
   | some i => [i.word]
   | none => [])

/-- Imperative block (app.py lines 2864-2875). -/
def verbImperative (m : MorphOracle) (p : Parse) : Val :=
  Val.dict (numbersL.filterMap fun n =>
    (m.inflect p ["impr", n]).map fun i => (number_names n, Val.str i.word))

/-- Past participle table, parameterised by voice tag `actv`/`pssv`
(app.py lines 2877-2910 and 2917-2941, two textually identical blocks). -/
def verbParticipleTable (m : MorphOracle) (p : Parse) (voice : String) : Val :=
  Val.dict (nounCases.map fun c =>
    (vcase_names c,
     Val.dict
       ((gendersL.filterMap fun g =>
           (m.inflect p ["PRTF", "past", voice, c, g]).map
             fun i => (gender_names g, Val.str i.word)) ++
        optEntry "复数" (m.inflect p ["PRTF", "past", voice, c, "plur"]))))

/-- Passive short forms (app.py lines 2943-2960). -/
def verbShortForm (m : MorphOracle) (p : Parse) : List (String × Val) :=
  (gendersL.filterMap fun g =>
     (m.inflect p ["PRTF", "past", "pssv", "shrt", g]).map
       fun i => (gender_names g, Val.str i.word)) ++
  optEntry "复数" (m.inflect p ["PRTF", "past", "pssv", "shrt", "plur"])

/-- `generate_verb_inflections` from `src/src/app.py` lines 2769-2971. -/
def generate_verb_inflections (mo : Option MorphOracle) (p : Parse) : Val :=
  match mo with
  | none => Val.dict []
  | some m =>
      let active_voice : List (String × Val) :=
        [("现在/将来时", verbPresentFuture m p), ("过去时", verbPastTense m p)] ++
        (let ap := verbAdverbialParticiple m p
         if ap.isEmpty then [] else [("副动词", Val.str (String.intercalate " // " ap))]) ++
        [("命令式", verbImperative m p), ("过去时主动形动词", verbParticipleTable m p "actv")]
      let passive_voice : List (String × Val) :=
        [("过去时被动形动词", verbParticipleTable m p "pssv")] ++
        (let sf := verbShortForm m p
         if sf.isEmpty then [] else [("简略形式", Val.dict sf)])
      Val.dict
        ([("主动语态", Val.dict active_voice)] ++
         (if passive_voice.isEmpty then [] else [("被动语态", Val.dict passive_voice)]) ++
         [("不定式", Val.str p.normal_form)])

/-- `s1.startswith`-style prefix test on character lists. -/
def startsWithL : List Char → List Char → Bool
  | _, [] => true
  | [], _ :: _ => false
  | c :: cs, d :: ds => c = d && startsWithL cs ds

/-- Python `needle in hay` substring test on character lists. -/
def containsSub : List Char → List Char → Bool
  | [], needle => needle.isEmpty
  | c :: cs, needle => startsWithL (c :: cs) needle || containsSub cs needle

/-- `generate_adjective_inflections` from `src/src/app.py` lines 2974-3083. -/
def generate_adjective_inflections (mo : Option MorphOracle) (p : Parse) : Val :=
  match mo with
  | none => Val.dict []
  | some m =>
      let main : List (String × Val) := numbersL.map fun num =>
        (number_names num,
         if num = "sing" then
           Val.dict (gendersL.map fun g =>
             (gender_names g,
              Val.dict (nounCases.filterMap fun c =>
                (m.inflect p [c, g, num]).map fun i => (case_names c, Val.str i.word))))
         else
           Val.dict (nounCases.filterMap fun c =>
             (m.inflect p [c, num]).map fun i => (case_names c, Val.str i.word)))
      let short_forms : List (String × Val) :=
        (gendersL.filterMap fun g =>
           (m.inflect p ["ADJS", g, "sing"]).map fun i => (gender_names g, Val.str i.word)) ++
        optEntry "复数" (m.inflect p ["ADJS", "plur"])
      let comparative_forms : List String :=
        match (m.parse p.normal_form).find? (fun q =>
          containsSub q.tag.raw.data "COMP".data ||
          containsSub (pyToLower q.tag.raw).data "compar".data) with
        | some q => [q.word]
        | none => []
      let comparative_forms :=
        if comparative_forms.isEmpty then
          match m.inflect p ["COMP"] with
          | some i => [i.word]
          | none => []
        else comparative_forms
      Val.dict
        (main ++
         (if short_forms.isEmpty then [] else [("短尾形式", Val.dict short_forms)]) ++
         (if comparative_forms.isEmpty then []
          else [("比较级", Val.str (String.intercalate " // " comparative_forms))]))

/-- Shared shape of the numeral and pronoun tables: number → case with
`parse.inflect({case, num})` per cell. -/
def caseNumberTable (m : MorphOracle) (p : Parse) : Val :=
  Val.dict (numbersL.map fun num =>
    (number_names num,
     Val.dict (nounCases.filterMap fun c =>
       (m.inflect p [c, num]).map fun i => (case_names c, Val.str i.word))))

/-- `generate_numeral_inflections` from `src/src/app.py` lines 3086-3123. -/
def generate_numeral_inflections (mo : Option MorphOracle) (p : Parse) : Val :=
  match mo with
  | none => Val.dict []
  | some m => caseNumberTable m p

/-- `generate_pronoun_inflections` from `src/src/app.py` lines 3126-3163
(textually identical to the numeral table in the source). -/
def generate_pronoun_inflections (mo : Option MorphOracle) (p : Parse) : Val :=
  match mo with
  | none => Val.dict []
  | some m => caseNumberTable m p

/-- Python truthiness of an optional string attribute
(`if parse.tag.case:`). -/
def pyTruthyOpt (o : Option String) : Bool :=
  match o with
  | none => false
  | some s => !(s == "")

/-- `generate_generic_inflections` from `src/src/app.py` lines 3166-3197:
only when the analysis carries a case tag, a flat case → form table from
`parse.inflect({case})`. -/
def generate_generic_inflections (mo : Option MorphOracle) (p : Parse) : Val :=
  match mo with
  | none => Val.dict []
  | some m =>
      if pyTruthyOpt p.tag.gcase then
        Val.dict (nounCases.filterMap fun c =>
          (m.inflect p [c]).map fun i => (case_names c, Val.str i.word))
      else Val.dict []

/-- One value of the per-POS `inflections` dict of
`generate_word_inflections`: `{"normal_form": ..., "inflections": ...}`. -/
structure PosEntry where
  normal_form : String
  inflections : Val

/-- Insert a parse into its POS group, preserving dict insertion order
(app.py lines 2659-2666). -/
def addToGroup (acc : List (String × List Parse)) (k : String) (p : Parse) :
    List (String × List Parse) :=
  if acc.any (fun e => e.1 == k) then
    acc.map (fun e => if e.1 == k then (e.1, e.2 ++ [p]) else e)
  else acc ++ [(k, [p])]

/-- Group the parses by `str(p.tag.POS)`, skipping parses without a POS
(app.py lines 2659-2666). -/
def posGroups (ps : List Parse) : List (String × List Parse) :=
  ps.foldl
    (fun acc p =>
      match p.tag.POS with
      | none => acc
      | some pos => addToGroup acc pos p) []

/-- Python dict assignment `d[k] = v`: overwrite in place if the key exists
(keeping its position), else append.  Keys are `Option String` because the
INFN branch can set the final key to `None`. -/
def dictSet {α : Type} (l : List (Option String × α)) (k : Option String) (v : α) :
    List (Option String × α) :=
  if l.any (fun e => e.1 == k) then
    l.map (fun e => if e.1 == k then (e.1, v) else e)
  else l ++ [(k, v)]

/-- The per-POS dispatch of `generate_word_inflections`
(app.py lines 2671-2713), including the INFN re-derivation: inflect the
best parse to `{1per, sing}`, re-parse the surface form, and if the POS is
no longer INFN build the verb paradigm from the re-parsed analysis;
otherwise fall back to the generic table from the original best parse.
Returns the final dict key (possibly changed by the INFN branch, and `none`
when the re-parsed analysis has no POS) together with the entry. -/
def dispatchPos (m : MorphOracle) (pos_str : String) (best : Parse) :
    Option String × PosEntry :=
  if pos_str = "INFN" then
    let st : Option String × Parse :=
      match m.inflect best ["1per", "sing"] with
      | none => (some "INFN", best)
      | some verb_form =>
          match m.parse verb_form.word with
          | [] => (some "INFN", best)
          | verb_parse :: _ => (verb_parse.tag.POS, verb_parse)
    let pos_inflections :=
      if st.1 = some "INFN" then generate_generic_inflections (some m) best
      else generate_verb_inflections (some m) st.2
    (st.1, { normal_form := best.normal_form, inflections := pos_inflections })
  else if pos_str = "NOUN" then
    (some pos_str, ⟨best.normal_form, generate_noun_inflections (some m) best⟩)
  else if pos_str = "VERB" then
    (some pos_str, ⟨best.normal_form, generate_verb_inflections (some m) best⟩)
  else if pos_str = "ADJF" then
    (some pos_str, ⟨best.normal_form, generate_adjective_inflections (some m) best⟩)
  else if pos_str = "ADJS" then
    (some pos_str, ⟨best.normal_form, generate_adjective_inflections (some m) best⟩)
  else if pos_str = "NUMR" then
    (some pos_str, ⟨best.normal_form, generate_numeral_inflections (some m) best⟩)
  else if pos_str = "NPRO" then
    (some pos_str, ⟨best.normal_form, generate_pronoun_inflections (some m) best⟩)
  else
    (some pos_str, ⟨best.normal_form, generate_generic_inflections (some m) best⟩)

/-- Result record of `generate_word_inflections`. -/
structure WordInflections where
  word : String
  normal_form : String
  inflections : List (Option String × PosEntry)

/-- `generate_word_inflections` from `src/src/app.py` lines 2641-2722:
unavailable analyzer or no parses yields the degraded record with
`normal_form = word.lower()` and an empty paradigm; otherwise each POS
group is dispatched to its paradigm builder, `best_parse` being the first
parse of the group. -/
def generate_word_inflections (mo : Option MorphOracle) (word : String) :
    WordInflections :=
  match mo with
  | none => ⟨word, pyToLower word, []⟩
  | some m =>
      match m.parse word with
      | [] => ⟨word, pyToLower word, []⟩
      | p0 :: _ =>
          let inflections := (posGroups (m.parse word)).foldl
            (fun infl e =>
              match e.2 with
              | [] => infl
              | best :: _ =>
                  let r := dispatchPos m e.1 best
                  dictSet infl r.1 r.2) []
          ⟨word, p0.normal_form, inflections⟩

/-- C3 counterexample: with the analyzer unavailable,
`MorphAnalyzer.get_lemma` (morph_utils.py lines 39-49) returns the word
unchanged, NOT lowercased, so the claimed synthetic lemma `lowercase(W)`
fails at `W = "Привет"`. -/
theorem get_lemma_unavailable_not_lowercased :
    get_lemma none "Привет" = "Привет" ∧ get_lemma none "Привет" ≠ pyToLower "Привет" := by
  constructor
  · rfl
  · decide

/-- C3 amended: with the analyzer unavailable no operation raises (all are
total here): the app.py operations return the synthetic result with lemma
`lowercase(W)` and an empty paradigm (`normalize_word` returns
`[word.lower()]`, `generate_word_inflections` returns
`{word, word.lower(), {}}`), while `MorphAnalyzer.get_lemma` returns the
word unchanged (it does not lowercase); in particular for `"привет"` the
lemma is `"привет"` with an empty paradigm. -/
theorem unavailable_mode_degraded_results (w : String) :
    normalize_word_app none w = [pyToLower w] ∧
    (generate_word_inflections none w).word = w ∧
    (generate_word_inflections none w).normal_form = pyToLower w ∧
    (generate_word_inflections none w).inflections = [] ∧
    get_lemma none w = w ∧
    (generate_word_inflections none "привет").normal_form = "привет" ∧
    (generate_word_inflections none "привет").inflections = [] ∧
    normalize_word_app none "привет" = ["привет"] :=
  ⟨rfl, rfl, rfl, rfl, rfl, by decide, rfl, by decide⟩

/-- Decidable shape check for the noun paradigm table: at most the two
number rows, every outer key a number label, every inner value a dict of at
most 6 cells keyed by case labels. -/
def nounTableKeysOK : Val → Bool
  | Val.str _ => false
  | Val.dict outer =>
      decide (outer.length ≤ 2) &&
      outer.all (fun e =>
        (numbersL.map number_names).contains e.1 &&
        (match e.2 with
         | Val.dict inner =>
             decide (inner.length ≤ 6) &&
             inner.all (fun ie => (nounCases.map case_names).contains ie.1)
         | Val.str _ => false))

/-- Number of leaf form cells of a two-level table. -/
def cellCount : Val → Nat
  | Val.str _ => 0
  | Val.dict outer =>
      (outer.map (fun e =>
        match e.2 with
        | Val.dict inner => inner.length
        | Val.str _ => 0)).sum

theorem all_keys_from_filterMap {β γ : Type} {f : String → Option β}
    (g : β → γ) (keys : List String) (kf : String → String) :
    ∀ ie ∈ keys.filterMap
      (fun c => (f c).map fun i => (kf c, g i)), ie.1 ∈ keys.map kf := by
  intro ie hie
  rw [List.mem_filterMap] at hie
  obtain ⟨c, hc, he⟩ := hie
  cases hfc : f c with
  | none => rw [hfc] at he; simp at he
  | some i =>
      rw [hfc] at he
      simp only [Option.map_some'] at he
      cases he
      exact List.mem_map.mpr ⟨c, hc, rfl⟩

/-- C1: for every analysis, the noun paradigm table of
`generate_noun_inflections` (app.py lines 2725-2766) has only the two
number keys (rendered through the source's `number_names` labels for
`sing`/`plur`), under each at most the six case keys (rendered through
`case_names` for `nomn/gent/datv/accs/ablt/loct`), hence at most 12 cells,
each individually absent when the analyzer yields no form. -/
theorem generate_noun_inflections_keys_confined
    (mo : Option MorphOracle) (p : Parse) :
    nounTableKeysOK (generate_noun_inflections mo p) = true ∧
    cellCount (generate_noun_inflections mo p) ≤ 12 := by
  cases mo with
  | none =>
      constructor
      · rfl
      · exact Nat.zero_le 12
  | some m =>
      have hinner : ∀ (f : String → Option Parse),
          ((nounCases.filterMap fun c =>
            (f c).map fun i => (case_names c, Val.str i.word)).all
              (fun ie => (nounCases.map case_names).contains ie.1)) = true := by
        intro f
        rw [List.all_eq_true]
        intro ie hie
        have := all_keys_from_filterMap (fun i : Parse => Val.str i.word)
          nounCases case_names ie hie
        exact List.elem_eq_true_of_mem this
      have hlen : ∀ (f : String → Option Parse),
          (nounCases.filterMap fun c =>
            (f c).map fun i => (case_names c, Val.str i.word)).length ≤ 6 := by
        intro f
        calc (nounCases.filterMap fun c =>
                (f c).map fun i => (case_names c, Val.str i.word)).length
            ≤ nounCases.length := List.length_filterMap_le _ _
          _ = 6 := rfl
      constructor
      · show nounTableKeysOK (Val.dict (numbersL.map _)) = true
        simp only [nounTableKeysOK, numbersL, List.map_cons, List.map_nil,
          List.all_cons, List.all_nil, List.length_cons, List.length_nil,
          Bool.and_true, Bool.and_eq_true]
        refine ⟨by decide, ⟨?_, ?_⟩, ⟨?_, ?_⟩⟩
        · decide
        · exact ⟨decide_eq_true (hlen _), hinner _⟩
        · decide
        · exact ⟨decide_eq_true (hlen _), hinner _⟩
      · show cellCount (Val.dict (numbersL.map _)) ≤ 12
        simp only [cellCount, numbersL, List.map_cons, List.map_nil, List.sum_cons,
          List.sum_nil]
        have h1 := hlen (fun c =>
          if ("sing" : String) = "sing" then m.inflect p [c] else m.inflect p [c, "sing"])
        have h2 := hlen (fun c =>
          if ("plur" : String) = "sing" then m.inflect p [c] else m.inflect p [c, "plur"])
        simp only [] at h1 h2
        omega

theorem alookup_eq_none_of_keys {α : Type} {l : List (String × α)} {k : String}
    (h : ∀ e ∈ l, e.1 ≠ k) : alookup l k = none := by
  induction l with
  | nil => rfl
  | cons e t ih =>
      show (if e.1 = k then some e.2 else alookup t k) = none
      rw [if_neg (h e (List.mem_cons_self e t))]
      exact ih (fun x hx => h x (List.mem_cons_of_mem e hx))

theorem alookup_map_keys {γ : Type} (keys : List String) (kf : String → String)
    (G : String → γ) (k0 : String) (h0 : k0 ∈ keys)
    (hnd : (keys.map kf).Nodup) :
    alookup (keys.map fun k => (kf k, G k)) (kf k0) = some (G k0) := by
  induction keys with
  | nil => simp at h0
  | cons k t ih =>
      rw [List.map_cons]
      show (if kf k = kf k0 then some (G k) else _) = _
      rw [List.map_cons, List.nodup_cons] at hnd
      rcases List.mem_cons.mp h0 with h0 | h0
      · subst h0
        rw [if_pos rfl]
      · have hne : kf k ≠ kf k0 := by
          intro he
          exact hnd.1 (he ▸ List.mem_map.mpr ⟨k0, h0, rfl⟩)
        rw [if_neg hne]
        exact ih h0 hnd.2

theorem alookup_filterMap_opt {β γ : Type} (keys : List String)
    (kf : String → String) (F : String → Option β) (G : β → γ) (k0 : String)
    (h0 : k0 ∈ keys) (hnd : (keys.map kf).Nodup) :
    alookup (keys.filterMap fun k => (F k).map fun v => (kf k, G v)) (kf k0) =
      (F k0).map G := by
  induction keys with
  | nil => simp at h0
  | cons k t ih =>
      rw [List.map_cons, List.nodup_cons] at hnd
      rcases List.mem_cons.mp h0 with h0 | h0
      · subst h0
        cases hFk : F k0 with
        | none =>
            rw [List.filterMap_cons, hFk]
            simp only [Option.map_none']
            apply alookup_eq_none_of_keys
            intro e he hek
            have hmem := all_keys_from_filterMap (f := F) G t kf e he
            rw [hek] at hmem
            exact hnd.1 hmem
        | some v =>
            rw [List.filterMap_cons, hFk]
            simp only [Option.map_some']
            show (if kf k0 = kf k0 then some (G v) else _) = _
            rw [if_pos rfl]
      · have hne : kf k ≠ kf k0 := by
          intro he
          exact hnd.1 (he ▸ List.mem_map.mpr ⟨k0, h0, rfl⟩)
        cases hFk : F k with
        | none =>
            rw [List.filterMap_cons, hFk]
            simp only [Option.map_none']
            exact ih h0 hnd.2
        | some v =>
            rw [List.filterMap_cons, hFk]
            simp only [Option.map_some']
            show (if kf k = kf k0 then some (G v) else _) = _
            rw [if_neg hne]
            exact ih h0 hnd.2

/-- Path to one cell of the active-voice present/future table:
root → 主动语态 → 现在/将来时 → tense label → number label → person label. -/
def pfCell (v : Val) (t n per : String) : Option Val :=
  ((((dlookup v "主动语态").bind (fun a => dlookup a "现在/将来时")).bind
      (fun a => dlookup a (tenseKey t))).bind
      (fun a => dlookup a (number_names n))).bind
      (fun a => dlookup a (person_names per))

theorem pfCell_generate_verb (m : MorphOracle) (p : Parse) (t n per : String)
    (ht : t ∈ tensesL) (hn : n ∈ numbersL) (hper : per ∈ personsL) :
    pfCell (generate_verb_inflections (some m) p) t n per =
      (m.inflect p [t, per, n]).map (fun i => Val.str i.word) := by
  have hroot : dlookup (generate_verb_inflections (some m) p) "主动语态" =
      some (Val.dict
        ([("现在/将来时", verbPresentFuture m p), ("过去时", verbPastTense m p)] ++
         (let ap := verbAdverbialParticiple m p
          if ap.isEmpty then []
          else [("副动词", Val.str (String.intercalate " // " ap))]) ++
         [("命令式", verbImperative m p),
          ("过去时主动形动词", verbParticipleTable m p "actv")])) := by
    simp only [generate_verb_inflections, dlookup]
    rw [List.cons_append]
    show (if "主动语态" = "主动语态" then _ else _) = _
    rw [if_pos rfl]
  have hav : ∀ (rest : List (String × Val)), dlookup (Val.dict
      (("现在/将来时", verbPresentFuture m p) :: rest)) "现在/将来时" =
      some (verbPresentFuture m p) := by
    intro rest
    simp [dlookup, alookup]
  unfold pfCell
  rw [hroot]
  simp only [Option.some_bind, List.cons_append, List.nil_append]
  rw [hav]
  simp only [Option.some_bind]
  unfold verbPresentFuture
  rw [show (dlookup (Val.dict (tensesL.map fun t2 => (tenseKey t2,
      Val.dict (numbersL.map fun n2 => (number_names n2,
        Val.dict (personsL.filterMap fun per2 => (m.inflect p [t2, per2, n2]).map
          fun i => (person_names per2, Val.str i.word))))))) (tenseKey t)) =
      some (Val.dict (numbersL.map fun n2 => (number_names n2,
        Val.dict (personsL.filterMap fun per2 => (m.inflect p [t, per2, n2]).map
          fun i => (person_names per2, Val.str i.word))))) from
    alookup_map_keys tensesL tenseKey _ t ht (by decide)]
  simp only [Option.some_bind]
  rw [show (dlookup (Val.dict (numbersL.map fun n2 => (number_names n2,
      Val.dict (personsL.filterMap fun per2 => (m.inflect p [t, per2, n2]).map
        fun i => (person_names per2, Val.str i.word))))) (number_names n)) =
      some (Val.dict (personsL.filterMap fun per2 => (m.inflect p [t, per2, n]).map
        fun i => (person_names per2, Val.str i.word))) from
    alookup_map_keys numbersL number_names _ n hn (by decide)]
  simp only [Option.some_bind]
  exact alookup_filterMap_opt personsL person_names
    (fun per2 => m.inflect p [t, per2, n]) (fun i => Val.str i.word) per hper
    (by decide)

/-- C4: every populated cell of the active-voice present/future table of
`generate_verb_inflections` (app.py lines 2798-2815) is exactly the surface
form the analyzer's `inflect` returns for `{tense, person, number}`, and a
cell is absent exactly when `inflect` returns none (omitted, never
fabricated); consequently when the analyzer yields no present-tense form
for any person/number (as for a perfective verb), every `pres` cell is
absent, so `pres` and `futr` are never both populated. -/
theorem verb_present_future_cells_faithful (m : MorphOracle) (p : Parse)
    (t n per : String)
    (ht : t ∈ tensesL) (hn : n ∈ numbersL) (hper : per ∈ personsL) :
    pfCell (generate_verb_inflections (some m) p) t n per =
      (m.inflect p [t, per, n]).map (fun i => Val.str i.word) ∧
    ((∀ per2 ∈ personsL, ∀ n2 ∈ numbersL, m.inflect p ["pres", per2, n2] = none) →
      ∀ per2 ∈ personsL, ∀ n2 ∈ numbersL,
        pfCell (generate_verb_inflections (some m) p) "pres" n2 per2 = none) := by
  constructor
  · exact pfCell_generate_verb m p t n per ht hn hper
  · intro habs per2 hper2 n2 hn2
    rw [pfCell_generate_verb m p "pres" n2 per2 (by decide) hn2 hper2,
      habs per2 hper2 n2 hn2]
    rfl

/-- Concrete verb oracle for the C4 witness: an imperfective-style parse
where only present forms exist. -/
def runVerbParse : Parse :=
  { word := "бегу", normal_form := "бежать",
    tag := { POS := some "VERB", gcase := none, raw := "VERB,impf,intr sing,1per,pres" } }

def runOracle : MorphOracle :=
  { parse := fun w => if w = "бегу" then [runVerbParse] else [],
    inflect := fun _ tags =>
      if tags = ["pres", "1per", "sing"] then
        some { word := "бегу", normal_form := "бежать",
               tag := { POS := some "VERB", gcase := none, raw := "" } }
      else none }

/-- Witness for C4 at the concrete oracle and the `pres/1per/sing` cell. -/
theorem verb_present_future_cells_faithful_witness :
    pfCell (generate_verb_inflections (some runOracle) runVerbParse) "pres" "sing" "1per" =
      (runOracle.inflect runVerbParse ["pres", "1per", "sing"]).map
        (fun i => Val.str i.word) ∧
    ((∀ per2 ∈ personsL, ∀ n2 ∈ numbersL,
        runOracle.inflect runVerbParse ["pres", per2, n2] = none) →
      ∀ per2 ∈ personsL, ∀ n2 ∈ numbersL,
        pfCell (generate_verb_inflections (some runOracle) runVerbParse) "pres" n2 per2 =
          none) :=
  verb_present_future_cells_faithful runOracle runVerbParse "pres" "sing" "1per"
    (by decide) (by decide) (by decide)

/-- C5: when the best-ranked parse of a POS group is INFN,
`generate_word_inflections` (app.py lines 2675-2694) inflects it to
`{1per, sing}`, re-parses the resulting surface form, and if a concrete
non-INFN analysis is recovered builds the verb paradigm from that re-parsed
analysis (keyed under the recovered POS); if the re-derivation leaves the
POS at INFN (no inflected form, no re-parse, or still INFN) it falls back
to the generic case-keyed table built from the original best parse
(`generate_generic_inflections`, app.py lines 3166-3197). -/
theorem infn_rederivation_dispatch (m : MorphOracle) (w : String)
    (best : Parse) (grest : List Parse) (p0 : Parse) (prest : List Parse)
    (hp : m.parse w = p0 :: prest)
    (hg : posGroups (m.parse w) = [("INFN", best :: grest)]) :
    (∀ vf, m.inflect best ["1per", "sing"] = some vf →
      ∀ vp vrest, m.parse vf.word = vp :: vrest →
      ∀ q, vp.tag.POS = some q → q ≠ "INFN" →
      (generate_word_inflections (some m) w).inflections =
        [(some q, ⟨best.normal_form, generate_verb_inflections (some m) vp⟩)]) ∧
    ((m.inflect best ["1per", "sing"] = none ∨
      (∃ vf, m.inflect best ["1per", "sing"] = some vf ∧ m.parse vf.word = []) ∨
      (∃ vf vp vrest, m.inflect best ["1per", "sing"] = some vf ∧
        m.parse vf.word = vp :: vrest ∧ vp.tag.POS = some "INFN")) →
      (generate_word_inflections (some m) w).inflections =
        [(some "INFN", ⟨best.normal_form, generate_generic_inflections (some m) best⟩)]) := by
  have hg2 : posGroups (p0 :: prest) = [("INFN", best :: grest)] := hp ▸ hg
  have hmain : (generate_word_inflections (some m) w).inflections =
      [dispatchPos m "INFN" best] := by
    simp only [generate_word_inflections, hp, hg2, List.foldl_cons, List.foldl_nil]
    simp [dictSet]
  constructor
  · intro vf hvf vp vrest hvp q hq hqne
    rw [hmain]
    have hd : dispatchPos m "INFN" best =
        (some q, ⟨best.normal_form, generate_verb_inflections (some m) vp⟩) := by
      unfold dispatchPos
      rw [if_pos rfl, hvf]
      simp only []
      rw [hvp]
      simp only []
      rw [hq]
      have : ¬ ((some q : Option String) = some "INFN") := by
        simp only [Option.some.injEq]
        exact hqne
      rw [if_neg this]
    rw [hd]
  · intro hcase
    rw [hmain]
    have hd : dispatchPos m "INFN" best =
        (some "INFN", ⟨best.normal_form, generate_generic_inflections (some m) best⟩) := by
      unfold dispatchPos
      rw [if_pos rfl]
      rcases hcase with hnone | ⟨vf, hvf, hnil⟩ | ⟨vf, vp, vrest, hvf, hvp, hpos⟩
      · rw [hnone]
        simp
      · rw [hvf]
        simp only []
        rw [hnil]
        simp
      · rw [hvf]
        simp only []
        rw [hvp]
        simp only []
        rw [hpos]
        simp
    rw [hd]

/-- Concrete INFN scenario for the C5 witness: parsing `"бежать"` yields an
INFN analysis; inflecting to `{1per, sing}` gives `"бегу"`, which re-parses
to a VERB analysis. -/
def infnParse : Parse :=
  { word := "бежать", normal_form := "бежать",
    tag := { POS := some "INFN", gcase := none, raw := "INFN,impf,intr" } }

def reparsedVerb : Parse :=
  { word := "бегу", normal_form := "бежать",
    tag := { POS := some "VERB", gcase := none, raw := "VERB,impf,intr sing,1per,pres" } }

def infnOracle : MorphOracle :=
  { parse := fun w =>
      if w = "бежать" then [infnParse]
      else if w = "бегу" then [reparsedVerb]
      else [],
    inflect := fun p tags =>
      if p = infnParse && tags == ["1per", "sing"] then
        some { word := "бегу", normal_form := "бежать",
               tag := { POS := some "VERB", gcase := none, raw := "" } }
      else none }

/-- Witness for C5 at the concrete INFN oracle. -/
theorem infn_rederivation_dispatch_witness :
    (∀ vf, infnOracle.inflect infnParse ["1per", "sing"] = some vf →
      ∀ vp vrest, infnOracle.parse vf.word = vp :: vrest →
      ∀ q, vp.tag.POS = some q → q ≠ "INFN" →
      (generate_word_inflections (some infnOracle) "бежать").inflections =
        [(some q, ⟨infnParse.normal_form,
           generate_verb_inflections (some infnOracle) vp⟩)]) ∧
    ((infnOracle.inflect infnParse ["1per", "sing"] = none ∨
      (∃ vf, infnOracle.inflect infnParse ["1per", "sing"] = some vf ∧
        infnOracle.parse vf.word = []) ∨
      (∃ vf vp vrest, infnOracle.inflect infnParse ["1per", "sing"] = some vf ∧
        infnOracle.parse vf.word = vp :: vrest ∧ vp.tag.POS = some "INFN")) →
      (generate_word_inflections (some infnOracle) "бежать").inflections =
        [(some "INFN", ⟨infnParse.normal_form,
           generate_generic_inflections (some infnOracle) infnParse⟩)]) :=
  infn_rederivation_dispatch infnOracle "бежать" infnParse [] infnParse []
    (by decide) (by decide)

/-- One caller-supplied vocabulary entry (the dict fields the code reads:
`word`, optional `lemma`, `meaning`, `note`).  The source key `lemma` is a
Lean keyword, hence the field name `lemma_`. -/
structure VocabEntry where
  word : String
  lemma_ : Option String
  meaning : String
  note : String
deriving DecidableEq

/-- One value of the vocab index (morph_utils.py lines 174-180); `lemma_`
is the source dict key `lemma`. -/
structure VocabInfo where
  word : String
  lemma_ : String
  meaning : String
  note : String
  original_item : VocabEntry
deriving DecidableEq

/-- Python `item.get('lemma') or computed`: a missing or empty (falsy)
provided lemma falls back to the computed one. -/
def pyOr (o : Option String) (d : String) : String :=
  match o with
  | none => d
  | some s => if s = "" then d else s

/-- Per-entry work of `prepare_vocab_index` (morph_utils.py lines 163-180):
strip the word, resolve the lemma (provided one when truthy, else
`get_lemma`), key by the lowercased lemma; `none` when the stripped word is
empty (the entry is skipped). -/
def resolveEntry (mo : Option MorphOracle) (item : VocabEntry) :
    Option (String × VocabInfo) :=
  let word := pyStrip item.word
  if word = "" then none
  else
    let lem := pyOr item.lemma_ (get_lemma mo word)
    some (pyToLower lem,
      { word := word, lemma_ := lem, meaning := item.meaning,
        note := item.note, original_item := item })

def prepare_vocab_index_aux (mo : Option MorphOracle) :
    List VocabEntry → List (String × VocabInfo) → List (String × VocabInfo)
  | [], index => index
  | item :: rest, index =>
      match resolveEntry mo item with
      | none => prepare_vocab_index_aux mo rest index
      | some (k, vi) =>
          if (alookup index k).isSome then prepare_vocab_index_aux mo rest index
          else prepare_vocab_index_aux mo rest (index ++ [(k, vi)])

/-- `VocabMatcher.prepare_vocab_index` from morph_utils.py lines 152-182:
left-to-right insertion, first entry wins on a key collision. -/
def prepare_vocab_index (mo : Option MorphOracle) (vocab_words : List VocabEntry) :
    List (String × VocabInfo) :=
  prepare_vocab_index_aux mo vocab_words []

theorem alookup_append {α : Type} (a b : List (String × α)) (k : String) :
    alookup (a ++ b) k = (alookup a k).or (alookup b k) := by
  induction a with
  | nil => rfl
  | cons e t ih =>
      rw [List.cons_append]
      show (if e.1 = k then some e.2 else alookup (t ++ b) k) =
        ((if e.1 = k then some e.2 else alookup t k).or _)
      by_cases he : e.1 = k
      · rw [if_pos he, if_pos he]
        rfl
      · rw [if_neg he, if_neg he]
        exact ih

theorem prepare_vocab_index_aux_lookup (mo : Option MorphOracle)
    (rest : List VocabEntry) (index : List (String × VocabInfo)) (k : String) :
    alookup (prepare_vocab_index_aux mo rest index) k =
      (alookup index k).or
        (((rest.filterMap (resolveEntry mo)).find? (fun e => e.1 == k)).map
          (fun e => e.2)) := by
  induction rest generalizing index with
  | nil =>
      show alookup index k = (alookup index k).or none
      cases alookup index k <;> rfl
  | cons item rest ih =>
      show alookup (match resolveEntry mo item with
        | none => prepare_vocab_index_aux mo rest index
        | some (k2, vi) =>
            if (alookup index k2).isSome then prepare_vocab_index_aux mo rest index
            else prepare_vocab_index_aux mo rest (index ++ [(k2, vi)])) k = _
      rw [List.filterMap_cons]
      cases hre : resolveEntry mo item with
      | none =>
          simp only []
          exact ih index
      | some e =>
          obtain ⟨k2, vi⟩ := e
          simp only []
          by_cases hk : (alookup index k2).isSome = true
          · rw [if_pos hk, ih index]
            by_cases hkk : k2 = k
            · subst hkk
              obtain ⟨v, hv⟩ := Option.isSome_iff_exists.mp hk
              rw [hv]
              rfl
            · have : ((k2, vi).1 == k) = false := by
                simp only [beq_eq_false_iff_ne, ne_eq]
                exact hkk
              rw [List.find?_cons_of_neg _ (by simp [this])]
          · rw [if_neg hk, ih (index ++ [(k2, vi)]), alookup_append]
            have hn : alookup index k2 = none := by
              cases ha : alookup index k2 with
              | none => rfl
              | some v => rw [ha] at hk; simp at hk
            by_cases hkk : k2 = k
            · subst hkk
              rw [hn]
              show ((alookup [(k2, vi)] k2).or _) = _
              have : alookup [(k2, vi)] k2 = some vi := by
                show (if k2 = k2 then some vi else none) = some vi
                rw [if_pos rfl]
              rw [this]
              rw [List.find?_cons_of_pos _ (by simp)]
              rfl
            · have h1 : alookup [(k2, vi)] k = none := by
                show (if k2 = k then some vi else none) = none
                rw [if_neg hkk]
              rw [h1]
              rw [List.find?_cons_of_neg _ (by simp [hkk])]
              cases alookup index k <;> rfl

/-- C9: `prepare_vocab_index` (morph_utils.py lines 152-182) resolves each
entry's lemma (the provided `lemma` field when truthy, else computed by
`get_lemma` from the stripped word), keys the index by the lowercase lemma,
and on collision keeps the first entry: looking up any key returns exactly
the value built from the FIRST entry (in list order) resolving to that
case-folded lemma, so a later entry never overwrites an earlier one. -/
theorem prepare_vocab_index_first_wins (mo : Option MorphOracle)
    (entries : List VocabEntry) (k : String) :
    alookup (prepare_vocab_index mo entries) k =
      ((entries.filterMap (resolveEntry mo)).find? (fun e => e.1 == k)).map
        (fun e => e.2) := by
  have := prepare_vocab_index_aux_lookup mo entries [] k
  rw [prepare_vocab_index, this]
  rfl

/-- The word characters of the tokenizing regex `[\wа-яА-ЯёЁ]+`
(morph_utils.py line 274), for the alphabets this application handles:
ASCII letters, digits, underscore, and the Cyrillic block U+0400 - U+04FF
(which contains the explicit `а-яА-ЯёЁ` ranges of the pattern). -/
def pyWordChar (c : Char) : Bool :=
  ('a' ≤ c && c ≤ 'z') || ('A' ≤ c && c ≤ 'Z') || ('0' ≤ c && c ≤ '9') ||
  c = '_' || (0x400 ≤ c.toNat && c.toNat ≤ 0x4ff)

/-- `VocabMatcher._split_text_with_positions` (morph_utils.py lines
269-280): the maximal runs of word characters together with their character
offsets, as `re.finditer` yields them.  Single accumulator pass; the state
is `none` outside a run and `some (s, acc)` inside a run that started at
offset `s`, `acc` holding the run's characters reversed. -/
def splitAcc : List Char → Nat → Option (Nat × List Char) → List (String × Nat × Nat)
  | [], _, none => []
  | [], i, some (s, acc) => [(String.mk acc.reverse, s, i)]
  | c :: cs, i, none =>
      if pyWordChar c then splitAcc cs (i + 1) (some (i, [c]))
      else splitAcc cs (i + 1) none
  | c :: cs, i, some (s, acc) =>
      if pyWordChar c then splitAcc cs (i + 1) (some (s, c :: acc))
      else (String.mk acc.reverse, s, i) :: splitAcc cs (i + 1) none

def split_text_with_positions (text : String) : List (String × Nat × Nat) :=
  splitAcc text.data 0 none

/-- Base offset represented by a splitter state. -/
def stBase : Option (Nat × List Char) → Nat → Nat
  | none, i => i
  | some (s, _), _ => s

/-- Full remaining text represented by a splitter state plus input. -/
def stCtx : Option (Nat × List Char) → List Char → List Char
  | none, l => l
  | some (_, acc), l => acc.reverse ++ l

theorem splitAcc_spec (l : List Char) :
    ∀ (i : Nat) (st : Option (Nat × List Char)),
    (match st with
     | none => True
     | some (s, acc) => i = s + acc.length ∧ acc ≠ [] ∧ ∀ c ∈ acc, pyWordChar c = true) →
    ((∀ t ∈ splitAcc l i st,
       stBase st i ≤ t.2.1 ∧ t.2.1 < t.2.2 ∧ t.2.2 ≤ i + l.length ∧
       ((stCtx st l).drop (t.2.1 - stBase st i)).take (t.2.2 - t.2.1) = t.1.data ∧
       ∀ c ∈ t.1.data, pyWordChar c = true) ∧
     List.Pairwise (fun a b => a.2.2 ≤ b.2.1) (splitAcc l i st)) := by
  induction l with
  | nil =>
      intro i st hinv
      cases st with
      | none => exact ⟨by intro t ht; simp [splitAcc] at ht, by simp [splitAcc]⟩
      | some pr =>
          obtain ⟨s, acc⟩ := pr
          obtain ⟨hi, hne, hchars⟩ := hinv
          constructor
          · intro t ht
            simp only [splitAcc, List.mem_singleton] at ht
            subst ht
            refine ⟨Nat.le_refl s, ?_, by simp, ?_, ?_⟩
            · have : 0 < acc.length := List.length_pos.mpr hne
              show s < i
              omega
            · show ((acc.reverse ++ []).drop (s - s)).take (i - s) = acc.reverse
              rw [List.append_nil, Nat.sub_self, List.drop_zero]
              have hlen : i - s = acc.reverse.length := by
                rw [List.length_reverse]; omega
              rw [hlen, List.take_length]
            · intro c hc
              exact hchars c (List.mem_reverse.mp hc)
          · simp [splitAcc]
  | cons c cs ih =>
      intro i st hinv
      cases st with
      | none =>
          by_cases hc : pyWordChar c
          · have hout : splitAcc (c :: cs) i none = splitAcc cs (i + 1) (some (i, [c])) := by
              simp [splitAcc, hc]
            have hIH := ih (i + 1) (some (i, [c]))
              ⟨by simp, by simp, by intro x hx; simp at hx; rw [hx]; exact hc⟩
            rw [hout]
            refine ⟨?_, hIH.2⟩
            intro t ht
            obtain ⟨h1, h2, h3, h4, h5⟩ := hIH.1 t ht
            refine ⟨h1, h2, by simpa [Nat.add_comm, Nat.add_assoc,
              Nat.add_left_comm] using h3, ?_, h5⟩
            simpa [stCtx, stBase] using h4
          · have hout : splitAcc (c :: cs) i none = splitAcc cs (i + 1) none := by
              simp [splitAcc, hc]
            have hIH := ih (i + 1) none trivial
            rw [hout]
            refine ⟨?_, hIH.2⟩
            intro t ht
            obtain ⟨h1, h2, h3, h4, h5⟩ := hIH.1 t ht
            simp only [stBase, stCtx] at h1 h3 h4 ⊢
            refine ⟨by omega, h2, by simpa [Nat.add_comm, Nat.add_assoc,
              Nat.add_left_comm] using h3, ?_, h5⟩
            have hds : t.2.1 - i = (t.2.1 - (i + 1)) + 1 := by omega
            rw [hds, List.drop_succ_cons]
            exact h4
      | some pr =>
          obtain ⟨s, acc⟩ := pr
          obtain ⟨hi, hne, hchars⟩ := hinv
          by_cases hc : pyWordChar c
          · have hout : splitAcc (c :: cs) i (some (s, acc)) =
                splitAcc cs (i + 1) (some (s, c :: acc)) := by
              simp [splitAcc, hc]
            have hIH := ih (i + 1) (some (s, c :: acc))
              ⟨by simp; omega, by simp, by
                intro x hx
                rcases List.mem_cons.mp hx with hx | hx
                · rw [hx]; exact hc
                · exact hchars x hx⟩
            rw [hout]
            refine ⟨?_, hIH.2⟩
            intro t ht
            obtain ⟨h1, h2, h3, h4, h5⟩ := hIH.1 t ht
            simp only [stBase, stCtx] at h1 h3 h4 ⊢
            refine ⟨h1, h2, by simpa [Nat.add_comm, Nat.add_assoc,
              Nat.add_left_comm] using h3, ?_, h5⟩
            rw [show (c :: acc).reverse ++ cs = acc.reverse ++ (c :: cs) by
              rw [List.reverse_cons, List.append_assoc]; rfl] at h4
            exact h4
          · have hout : splitAcc (c :: cs) i (some (s, acc)) =
                (String.mk acc.reverse, s, i) :: splitAcc cs (i + 1) none := by
              simp [splitAcc, hc]
            have hIH := ih (i + 1) none trivial
            rw [hout]
            have hacclen : acc.reverse.length = acc.length := List.length_reverse acc
            constructor
            · intro t ht
              rcases List.mem_cons.mp ht with ht | ht
              · subst ht
                refine ⟨Nat.le_refl s, ?_, ?_, ?_, ?_⟩
                · have : 0 < acc.length := List.length_pos.mpr hne
                  show s < i
                  omega
                · show i ≤ i + (c :: cs).length
                  omega
                · show ((acc.reverse ++ (c :: cs)).drop (s - s)).take (i - s) = acc.reverse
                  rw [Nat.sub_self, List.drop_zero]
                  have hlen : i - s = acc.reverse.length := by omega
                  rw [hlen, List.take_left]
                · intro x hx
                  exact hchars x (List.mem_reverse.mp hx)
              · obtain ⟨h1, h2, h3, h4, h5⟩ := hIH.1 t ht
                simp only [stBase, stCtx] at h1 h3 h4 ⊢
                refine ⟨by omega, h2, by simp; omega, ?_, h5⟩
                have hds : t.2.1 - s = acc.reverse.length + ((t.2.1 - (i + 1)) + 1) := by
                  omega
                rw [hds, List.drop_append, List.drop_succ_cons]
                exact h4
            · rw [List.pairwise_cons]
              constructor
              · intro t ht
                have h1 := (hIH.1 t ht).1
                simp only [stBase] at h1
                show i ≤ t.2.1
                omega
              · exact hIH.2

/-- One match span (the dict built in `find_matches_in_text`,
morph_utils.py lines 216-225).  `stop` is the source dict key `end` and
`lemma_` the source key `lemma` (both Lean keywords). -/
structure MatchSpan where
  start : Nat
  stop : Nat
  text : String
  normalized : String
  lemma_ : String
  lemma_lower : String
  vocab_info : VocabInfo
deriving DecidableEq

/-- The loop body of `find_matches_in_text` for one token (morph_utils.py
lines 208-225): normalize, lemmatize, look the case-folded lemma up in the
vocab index, and emit a span when it is present. -/
def matchOfToken (mo : Option MorphOracle) (vocab_index : List (String × VocabInfo))
    (t : String × Nat × Nat) : Option MatchSpan :=
  let normalized := normalize_word_mu t.1
  if normalized = "" then none
  else
    let lem := get_lemma mo normalized
    let ll := pyToLower lem
    match alookup vocab_index ll with
    | none => none
    | some vi => some ⟨t.2.1, t.2.2, t.1, normalized, lem, ll, vi⟩

/-- `VocabMatcher.find_matches_in_text` from morph_utils.py lines 184-227. -/
def find_matches_in_text (mo : Option MorphOracle) (text : String)
    (vocab_index : List (String × VocabInfo)) : List MatchSpan :=
  if text = "" ∨ vocab_index = [] then []
  else (split_text_with_positions text).filterMap (matchOfToken mo vocab_index)

theorem matchOfToken_some {mo : Option MorphOracle}
    {vocab_index : List (String × VocabInfo)} {t : String × Nat × Nat}
    {x : MatchSpan} (hx : matchOfToken mo vocab_index t = some x) :
    x.start = t.2.1 ∧ x.stop = t.2.2 ∧ x.text = t.1 := by
  unfold matchOfToken at hx
  by_cases hn : normalize_word_mu t.1 = ""
  · rw [if_pos hn] at hx
    exact absurd hx (by simp)
  · rw [if_neg hn] at hx
    simp only [] at hx
    cases hl : alookup vocab_index (pyToLower (get_lemma mo (normalize_word_mu t.1))) with
    | none => rw [hl] at hx; exact absurd hx (by simp)
    | some vi =>
        rw [hl] at hx
        simp only [Option.some.injEq] at hx
        rw [← hx]
        exact ⟨rfl, rfl, rfl⟩

theorem find_matches_spans (mo : Option MorphOracle) (text : String)
    (idx : List (String × VocabInfo)) :
    (∀ x ∈ find_matches_in_text mo text idx,
      x.start < x.stop ∧ x.stop ≤ text.data.length ∧
      (text.data.drop x.start).take (x.stop - x.start) = x.text.data ∧
      ∀ c ∈ x.text.data, pyWordChar c = true) ∧
    List.Pairwise (fun a b => a.stop ≤ b.start) (find_matches_in_text mo text idx) := by
  have hspec := splitAcc_spec text.data 0 none trivial
  unfold find_matches_in_text
  by_cases hg : text = "" ∨ idx = []
  · rw [if_pos hg]
    exact ⟨by intro x hx; simp at hx, List.Pairwise.nil⟩
  · rw [if_neg hg]
    constructor
    · intro x hx
      rw [List.mem_filterMap] at hx
      obtain ⟨t, ht, hxt⟩ := hx
      obtain ⟨hs, he, htx⟩ := matchOfToken_some hxt
      obtain ⟨h1, h2, h3, h4, h5⟩ := hspec.1 t ht
      simp only [stBase, stCtx] at h1 h3 h4
      refine ⟨by omega, by simpa [he] using h3, ?_, ?_⟩
      · rw [hs, he, htx]
        have : t.2.1 - 0 = t.2.1 := by omega
        rw [← h4, this]
      · rw [htx]
        exact h5
    · rw [List.pairwise_filterMap]
      apply List.Pairwise.imp_of_mem ?_ hspec.2
      intro a b ha hb hab x hx y hy
      simp only [Option.mem_def] at hx hy
      obtain ⟨hxs, hxe, _⟩ := matchOfToken_some hx
      obtain ⟨hys, hye, _⟩ := matchOfToken_some hy
      obtain ⟨_, h2, _, _, _⟩ := hspec.1 a ha
      rw [hxe, hys]
      omega

/-- C7: `find_matches_in_text` (morph_utils.py lines 184-227) is a pure
function of its inputs — two calls on equal inputs return identical span
lists — and the spans come out ordered by strictly ascending start offset
(the regex tokens are disjoint and left to right). -/
theorem find_matches_deterministic_ordered (mo : Option MorphOracle)
    (text : String) (idx : List (String × VocabInfo)) :
    find_matches_in_text mo text idx = find_matches_in_text mo text idx ∧
    List.Pairwise (fun a b => a.start < b.start)
      (find_matches_in_text mo text idx) := by
  refine ⟨rfl, ?_⟩
  have h := find_matches_spans mo text idx
  apply List.Pairwise.imp_of_mem ?_ h.2
  intro a b ha _ hab
  have h1 := (h.1 a ha).1
  omega

/-- One character of `VocabMatcher._escape_html` (morph_utils.py lines
282-292).  The source performs five sequential single-character `replace`
passes with `&` first; since no replacement string contains a character
replaced by a later pass, this equals the per-character expansion. -/
def escChar (c : Char) : List Char :=
  if c = '&' then "&amp;".data
  else if c = '<' then "&lt;".data
  else if c = '>' then "&gt;".data
  else if c = '"' then "&quot;".data
  else if c = '\'' then "&#39;".data
  else [c]

def escape_html (l : List Char) : List Char :=
  l.flatMap escChar

/-- The wrapper prefix inserted by `highlight_text` (morph_utils.py lines
258-264). -/
def markOpen (vi : VocabInfo) : List Char :=
  "<mark class=\"vocab-match\" data-lemma=\"".data ++ escape_html vi.lemma_.data ++
  "\" data-meaning=\"".data ++ escape_html vi.meaning.data ++
  "\" data-note=\"".data ++ escape_html vi.note.data ++ "\">".data

def markClose : List Char :=
  "</mark>".data

/-- The loop body of `highlight_text` (morph_utils.py lines 251-265):
`before + marked + after` computed against the current partially-rewritten
result. -/
def applyMatch (result : List Char) (mt : MatchSpan) : List Char :=
  let before := result.take mt.start
  let matched_text := (result.drop mt.start).take (mt.stop - mt.start)
  let after := result.drop mt.stop
  before ++ markOpen mt.vocab_info ++ escape_html matched_text ++ markClose ++ after

/-- Stable insertion for `matches.sort(key=lambda m: m['start'],
reverse=True)`: each element is placed after every already-placed element
whose start is at least as large, which is Python's stable descending
sort. -/
def insertDescByStart (x : MatchSpan) : List MatchSpan → List MatchSpan
  | [] => [x]
  | y :: ys => if y.start ≥ x.start then y :: insertDescByStart x ys else x :: y :: ys

def sortDescByStart (l : List MatchSpan) : List MatchSpan :=
  l.foldl (fun acc x => insertDescByStart x acc) []

/-- `VocabMatcher.highlight_text` from morph_utils.py lines 229-267:
empty text, empty index or no matches returns the text unchanged; otherwise
the matches are substituted from the highest start offset downward. -/
def highlight_text (mo : Option MorphOracle) (text : String)
    (vocab_index : List (String × VocabInfo)) : String :=
  if text = "" ∨ vocab_index = [] then text
  else
    let ms := find_matches_in_text mo text vocab_index
    if ms = [] then text
    else String.mk ((sortDescByStart ms).foldl applyMatch text.data)

/-- C10: `highlight_text` (morph_utils.py lines 240-245) is the identity on
the no-work cases: empty text, empty vocab index, or no match span found
all return the input text unchanged. -/
theorem highlight_text_identity_no_match (mo : Option MorphOracle)
    (text : String) (idx : List (String × VocabInfo)) :
    (text = "" → highlight_text mo text idx = text) ∧
    (idx = [] → highlight_text mo text idx = text) ∧
    (find_matches_in_text mo text idx = [] → highlight_text mo text idx = text) := by
  refine ⟨?_, ?_, ?_⟩
  · intro h
    unfold highlight_text
    rw [if_pos (Or.inl h)]
  · intro h
    unfold highlight_text
    rw [if_pos (Or.inr h)]
  · intro h
    unfold highlight_text
    by_cases hg : text = "" ∨ idx = []
    · rw [if_pos hg]
    · rw [if_neg hg]
      show (if find_matches_in_text mo text idx = [] then text
        else String.mk ((sortDescByStart (find_matches_in_text mo text idx)).foldl
          applyMatch text.data)) = text
      rw [if_pos h]

/-- Witness for C10: a text with no vocabulary entry matching returns
unchanged. -/
theorem highlight_text_identity_no_match_witness :
    highlight_text none "Это дом." [] = "Это дом." :=
  (highlight_text_identity_no_match none "Это дом." []).2.1 rfl

/-! Stripping the inserted mark-up back out (the observation function of
the round-trip claim): delete every maximal angle-bracketed tag.  This
recovers the original text exactly because the wrapper attribute values are
escaped (no stray angle brackets inside a tag) and the wrapped matched text
is a run of word characters (escaping is the identity on it). -/

def stripAngleAux : Bool → List Char → List Char
  | _, [] => []
  | false, c :: cs =>
      if c = '<' then stripAngleAux true cs else c :: stripAngleAux false cs
  | true, c :: cs =>
      if c = '>' then stripAngleAux false cs else stripAngleAux true cs

def stripAngle (l : List Char) : List Char :=
  stripAngleAux false l

theorem stripAngleAux_false_append (A B : List Char) (h : ∀ c ∈ A, c ≠ '<') :
    stripAngleAux false (A ++ B) = A ++ stripAngleAux false B := by
  induction A with
  | nil => rfl
  | cons c cs ih =>
      rw [List.cons_append]
      show (if c = '<' then _ else c :: stripAngleAux false (cs ++ B)) = _
      rw [if_neg (h c (List.mem_cons_self c cs))]
      rw [ih (fun x hx => h x (List.mem_cons_of_mem c hx)), List.cons_append]

theorem stripAngle_self (A : List Char) (h : ∀ c ∈ A, c ≠ '<') :
    stripAngle A = A := by
  have h2 := stripAngleAux_false_append A [] h
  have h0 : stripAngleAux false [] = ([] : List Char) := rfl
  rw [h0, List.append_nil] at h2
  exact h2

theorem stripAngleAux_true_append (mid B : List Char) (h : ∀ c ∈ mid, c ≠ '>') :
    stripAngleAux true (mid ++ '>' :: B) = stripAngleAux false B := by
  induction mid with
  | nil =>
      show (if '>' = '>' then stripAngleAux false B else _) = _
      rw [if_pos rfl]
  | cons c cs ih =>
      rw [List.cons_append]
      show (if c = '>' then _ else stripAngleAux true (cs ++ '>' :: B)) = _
      rw [if_neg (h c (List.mem_cons_self c cs))]
      exact ih (fun x hx => h x (List.mem_cons_of_mem c hx))

theorem escChar_no_angle (c : Char) : ∀ x ∈ escChar c, x ≠ '<' ∧ x ≠ '>' := by
  intro x hx
  unfold escChar at hx
  by_cases h1 : c = '&'
  · rw [if_pos h1] at hx
    exact (by decide : ∀ x ∈ "&amp;".data, x ≠ '<' ∧ x ≠ '>') x hx
  · rw [if_neg h1] at hx
    by_cases h2 : c = '<'
    · rw [if_pos h2] at hx
      exact (by decide : ∀ x ∈ "&lt;".data, x ≠ '<' ∧ x ≠ '>') x hx
    · rw [if_neg h2] at hx
      by_cases h3 : c = '>'
      · rw [if_pos h3] at hx
        exact (by decide : ∀ x ∈ "&gt;".data, x ≠ '<' ∧ x ≠ '>') x hx
      · rw [if_neg h3] at hx
        by_cases h4 : c = '"'
        · rw [if_pos h4] at hx
          exact (by decide : ∀ x ∈ "&quot;".data, x ≠ '<' ∧ x ≠ '>') x hx
        · rw [if_neg h4] at hx
          by_cases h5 : c = '\''
          · rw [if_pos h5] at hx
            exact (by decide : ∀ x ∈ "&#39;".data, x ≠ '<' ∧ x ≠ '>') x hx
          · rw [if_neg h5] at hx
            rw [List.mem_singleton] at hx
            subst hx
            exact ⟨h2, h3⟩

theorem escape_html_no_angle (l : List Char) :
    ∀ x ∈ escape_html l, x ≠ '<' ∧ x ≠ '>' := by
  intro x hx
  rw [escape_html, List.mem_flatMap] at hx
  obtain ⟨c, _, hc⟩ := hx
  exact escChar_no_angle c x hc

theorem escChar_wordchar (c : Char) (h : pyWordChar c = true) : escChar c = [c] := by
  have h1 : c ≠ '&' := by intro he; rw [he] at h; exact absurd h (by decide)
  have h2 : c ≠ '<' := by intro he; rw [he] at h; exact absurd h (by decide)
  have h3 : c ≠ '>' := by intro he; rw [he] at h; exact absurd h (by decide)
  have h4 : c ≠ '"' := by intro he; rw [he] at h; exact absurd h (by decide)
  have h5 : c ≠ '\'' := by intro he; rw [he] at h; exact absurd h (by decide)
  unfold escChar
  rw [if_neg h1, if_neg h2, if_neg h3, if_neg h4, if_neg h5]

theorem escape_html_id_of_wordchar (l : List Char)
    (h : ∀ c ∈ l, pyWordChar c = true) : escape_html l = l := by
  induction l with
  | nil => rfl
  | cons c t ih =>
      rw [escape_html, List.flatMap_cons,
        escChar_wordchar c (h c (List.mem_cons_self c t))]
      rw [escape_html] at ih
      rw [ih (fun x hx => h x (List.mem_cons_of_mem c hx))]
      rfl

/-- The wrapper prefix without its surrounding angle brackets. -/
def markOpenMid (vi : VocabInfo) : List Char :=
  "mark class=\"vocab-match\" data-lemma=\"".data ++ escape_html vi.lemma_.data ++
  "\" data-meaning=\"".data ++ escape_html vi.meaning.data ++
  "\" data-note=\"".data ++ escape_html vi.note.data ++ "\"".data

theorem markOpen_decomp (vi : VocabInfo) :
    markOpen vi = '<' :: markOpenMid vi ++ ['>'] := by
  unfold markOpen markOpenMid
  rw [show "<mark class=\"vocab-match\" data-lemma=\"".data =
    '<' :: "mark class=\"vocab-match\" data-lemma=\"".data from by decide]
  rw [show "\">".data = "\"".data ++ ['>'] from by decide]
  simp [List.append_assoc]

theorem markOpenMid_no_gt (vi : VocabInfo) : ∀ c ∈ markOpenMid vi, c ≠ '>' := by
  intro c hc
  unfold markOpenMid at hc
  simp only [List.mem_append] at hc
  rcases hc with ((((((hc | hc) | hc) | hc) | hc) | hc) | hc)
  · exact (by decide :
      ∀ x ∈ "mark class=\"vocab-match\" data-lemma=\"".data, x ≠ '>') c hc
  · exact (escape_html_no_angle _ c hc).2
  · exact (by decide : ∀ x ∈ "\" data-meaning=\"".data, x ≠ '>') c hc
  · exact (escape_html_no_angle _ c hc).2
  · exact (by decide : ∀ x ∈ "\" data-note=\"".data, x ≠ '>') c hc
  · exact (escape_html_no_angle _ c hc).2
  · exact (by decide : ∀ x ∈ "\"".data, x ≠ '>') c hc

theorem stripAngle_markOpen (vi : VocabInfo) (X : List Char) :
    stripAngleAux false (markOpen vi ++ X) = stripAngleAux false X := by
  rw [markOpen_decomp]
  rw [show ('<' :: markOpenMid vi ++ ['>']) ++ X =
    '<' :: (markOpenMid vi ++ '>' :: X) from by simp]
  show (if ('<' : Char) = '<' then _ else _) = _
  rw [if_pos rfl]
  exact stripAngleAux_true_append _ X (markOpenMid_no_gt vi)

theorem stripAngle_markClose (X : List Char) :
    stripAngleAux false (markClose ++ X) = stripAngleAux false X := by
  rw [show markClose = '<' :: "/mark".data ++ ['>'] from by decide]
  rw [show ('<' :: "/mark".data ++ ['>']) ++ X =
    '<' :: ("/mark".data ++ '>' :: X) from by simp]
  show (if ('<' : Char) = '<' then _ else _) = _
  rw [if_pos rfl]
  exact stripAngleAux_true_append _ X (by decide)

theorem wordchar_ne_lt {c : Char} (h : pyWordChar c = true) : c ≠ '<' := by
  intro he
  rw [he] at h
  exact absurd h (by decide)

/-- Substituting matches from the highest offset downward is the same as a
right fold over the ascending match list. -/
def applyAll (t : List Char) (ms : List MatchSpan) : List Char :=
  ms.foldr (fun a acc => applyMatch acc a) t

theorem take_drop_split3 (t : List Char) (p s e : Nat) (hps : p ≤ s) (hse : s ≤ e) :
    (t.take s).drop p ++ ((t.drop s).take (e - s) ++ t.drop e) = t.drop p := by
  have h1 : (t.take s).drop p = (t.drop p).take (s - p) := List.drop_take s p t
  have h2 : t.drop s = ((t.drop p).drop (s - p)) := by
    rw [List.drop_drop]
    congr 1
    omega
  have h3 : t.drop e = (((t.drop p).drop (s - p)).drop (e - s)) := by
    rw [List.drop_drop, List.drop_drop]
    congr 1
    omega
  rw [h1, h3, show (t.drop s).take (e - s) = ((t.drop p).drop (s - p)).take (e - s) by
    rw [← h2]]
  rw [List.take_append_drop, List.take_append_drop]

theorem applyAll_take_strip (t : List Char) (htext : ∀ c ∈ t, c ≠ '<') :
    ∀ (ms : List MatchSpan),
      (∀ a ∈ ms, a.start < a.stop ∧ a.stop ≤ t.length ∧
        (∀ c ∈ (t.drop a.start).take (a.stop - a.start), pyWordChar c = true)) →
      List.Pairwise (fun a b => a.stop ≤ b.start) ms →
      ∀ (p : Nat), (∀ a ∈ ms, p ≤ a.start) →
      ((applyAll t ms).take p = t.take p ∧
       stripAngle ((applyAll t ms).drop p) = t.drop p) := by
  intro ms
  induction ms with
  | nil =>
      intro _ _ p _
      exact ⟨rfl, stripAngle_self _ (fun c hc => htext c (List.mem_of_mem_drop hc))⟩
  | cons a ms ih =>
      intro hspans hpw p hp
      have hpwa := List.pairwise_cons.mp hpw
      obtain ⟨hse, het, hwc⟩ := hspans a (List.mem_cons_self a ms)
      obtain ⟨hvtake, hvstrip⟩ :=
        ih (fun b hb => hspans b (List.mem_cons_of_mem a hb)) hpwa.2 a.stop
          (fun b hb => hpwa.1 b hb)
      have happa : applyAll t (a :: ms) = applyMatch (applyAll t ms) a := rfl
      set v := applyAll t ms with hv
      have hvlen : a.stop ≤ v.length := by
        have hlen := congrArg List.length hvtake
        rw [List.length_take, List.length_take] at hlen
        omega
      have hs_le : a.start ≤ a.stop := Nat.le_of_lt hse
      have hps : p ≤ a.start := hp a (List.mem_cons_self a ms)
      have hvtake_s : v.take a.start = t.take a.start := by
        have h1 : v.take a.start = (v.take a.stop).take a.start := by
          rw [List.take_take]
          congr 1
          omega
        rw [h1, hvtake, List.take_take]
        congr 1
        omega
      have hslice : (v.drop a.start).take (a.stop - a.start) =
          (t.drop a.start).take (a.stop - a.start) := by
        rw [← List.drop_take, hvtake, List.drop_take]
      have happ : applyMatch v a = v.take a.start ++ (markOpen a.vocab_info ++
          (escape_html ((v.drop a.start).take (a.stop - a.start)) ++
           (markClose ++ v.drop a.stop))) := by
        simp only [applyMatch, List.append_assoc]
      have hlen_vs : (v.take a.start).length = a.start := by
        rw [List.length_take]
        omega
      have hAnolt : ∀ c ∈ (t.take a.start).drop p, c ≠ '<' :=
        fun c hc => htext c (List.mem_of_mem_take (List.mem_of_mem_drop hc))
      constructor
      · rw [happa, happ, List.take_append_of_le_length (by omega), hvtake_s,
          List.take_take]
        congr 1
        omega
      · rw [happa, happ, List.drop_append_of_le_length (by omega), hvtake_s, hslice,
          escape_html_id_of_wordchar _ hwc]
        show stripAngleAux false _ = _
        rw [stripAngleAux_false_append _ _ hAnolt, stripAngle_markOpen,
          stripAngleAux_false_append _ _ (fun c hc => wordchar_ne_lt (hwc c hc)),
          stripAngle_markClose]
        rw [show stripAngleAux false (v.drop a.stop) = stripAngle (v.drop a.stop)
          from rfl, hvstrip]
        exact take_drop_split3 t p a.start a.stop hps hs_le

theorem insertDesc_eq_cons (x : MatchSpan) (acc : List MatchSpan)
    (h : ∀ y ∈ acc, y.start < x.start) : insertDescByStart x acc = x :: acc := by
  cases acc with
  | nil => rfl
  | cons y ys =>
      show (if y.start ≥ x.start then _ else x :: y :: ys) = _
      rw [if_neg]
      have := h y (List.mem_cons_self y ys)
      omega

theorem sortDesc_foldl (l : List MatchSpan) :
    ∀ acc, (∀ y ∈ acc, ∀ x ∈ l, y.start < x.start) →
    List.Pairwise (fun a b => a.start < b.start) l →
    l.foldl (fun acc x => insertDescByStart x acc) acc = l.reverse ++ acc := by
  induction l with
  | nil =>
      intro acc _ _
      simp
  | cons x xs ih =>
      intro acc hacc hpw
      rw [List.foldl_cons,
        insertDesc_eq_cons x acc (fun y hy => hacc y hy x (List.mem_cons_self x xs))]
      have hpc := List.pairwise_cons.mp hpw
      rw [ih (x :: acc) ?_ hpc.2]
      · simp
      · intro y hy z hz
        rcases List.mem_cons.mp hy with hy | hy
        · subst hy
          exact hpc.1 z hz
        · exact hacc y hy z (List.mem_cons_of_mem x hz)

theorem sortDesc_eq_reverse (l : List MatchSpan)
    (h : List.Pairwise (fun a b => a.start < b.start) l) :
    sortDescByStart l = l.reverse := by
  have h2 := sortDesc_foldl l [] (by intro y hy; simp at hy) h
  rw [sortDescByStart, h2, List.append_nil]

/-- C6: for text containing no angle bracket of its own (so that inserted
wrappers are syntactically identifiable), stripping every angle-bracketed
tag out of `highlight_text` output reconstructs the original text exactly.
The matches produced by `find_matches_in_text` are non-overlapping word
tokens, substitutions are applied from the highest start offset downward
(`sortDescByStart`, the source's `sort(key=start, reverse=True)`), each
matched slice is escaped but escaping is the identity on word characters,
and attribute values are escaped so no stray bracket appears inside a
wrapper. -/
theorem highlight_text_roundtrip (mo : Option MorphOracle) (text : String)
    (idx : List (String × VocabInfo)) (htext : ∀ c ∈ text.data, c ≠ '<') :
    stripAngle (highlight_text mo text idx).data = text.data := by
  unfold highlight_text
  by_cases hg : text = "" ∨ idx = []
  · rw [if_pos hg]
    exact stripAngle_self _ htext
  · rw [if_neg hg]
    by_cases hm : find_matches_in_text mo text idx = []
    · show stripAngle (if find_matches_in_text mo text idx = [] then text
        else String.mk ((sortDescByStart (find_matches_in_text mo text idx)).foldl
          applyMatch text.data)).data = _
      rw [if_pos hm]
      exact stripAngle_self _ htext
    · show stripAngle (if find_matches_in_text mo text idx = [] then text
        else String.mk ((sortDescByStart (find_matches_in_text mo text idx)).foldl
          applyMatch text.data)).data = _
      rw [if_neg hm]
      have hspans := find_matches_spans mo text idx
      have hasc : List.Pairwise (fun a b => a.start < b.start)
          (find_matches_in_text mo text idx) := by
        apply List.Pairwise.imp_of_mem ?_ hspans.2
        intro a b ha _ hab
        have := (hspans.1 a ha).1
        omega
      show stripAngle ((sortDescByStart (find_matches_in_text mo text idx)).foldl
        applyMatch text.data) = text.data
      rw [sortDesc_eq_reverse _ hasc, List.foldl_reverse]
      have key := applyAll_take_strip text.data htext
        (find_matches_in_text mo text idx)
        (fun a ha => by
          obtain ⟨h1, h2, h3, h4⟩ := hspans.1 a ha
          exact ⟨h1, h2, fun c hc => h4 c (h3 ▸ hc)⟩)
        hspans.2 0 (fun a _ => Nat.zero_le _)
      have h2 := key.2
      rw [List.drop_zero, List.drop_zero] at h2
      exact h2

/-- Concrete highlighting scenario for the C6 witness: the vocabulary entry
`дом` matched inside `"Это большой дом."`. -/
def domEntry : VocabEntry :=
  { word := "дом", lemma_ := none, meaning := "house", note := "" }

def domInfo : VocabInfo :=
  { word := "дом", lemma_ := "дом", meaning := "house", note := "",
    original_item := domEntry }

def domOracle : MorphOracle :=
  { parse := fun w =>
      if w = "дом" then
        [{ word := "дом", normal_form := "дом",
           tag := { POS := some "NOUN", gcase := some "nomn",
                    raw := "NOUN,inan,masc sing,nomn" } }]
      else [],
    inflect := fun _ _ => none }

/-- Witness for C6 at the concrete scenario. -/
theorem highlight_text_roundtrip_witness :
    stripAngle (highlight_text (some domOracle) "Это большой дом."
      [("дом", domInfo)]).data = "Это большой дом.".data :=
  highlight_text_roundtrip (some domOracle) "Это большой дом." [("дом", domInfo)]
    (by decide)

end LLT
